import Mathlib

/-!
Verification of the db2go struct-generation core.

Strings from the Go source are modelled as `List Char`. Uppercasing is
modelled with `Char.toUpper` (the ASCII case mapping, which agrees with Go
`strings.ToUpper` on the ASCII identifiers and SQL type tokens this tool
consumes). Fallible operations (Go `panic`) are modelled with `Option`.
-/

namespace Db2go

/-- Whitespace predicate of Go `unicode.IsSpace`, used by `strings.TrimSpace`:
the ASCII space characters together with the Unicode White_Space code points. -/
def isSpaceGo (c : Char) : Bool :=
  (decide (9 ≤ c.toNat) && decide (c.toNat ≤ 13)) || decide (c.toNat = 32) ||
  decide (c.toNat = 0x85) || decide (c.toNat = 0xA0) || decide (c.toNat = 0x1680) ||
  (decide (0x2000 ≤ c.toNat) && decide (c.toNat ≤ 0x200A)) ||
  decide (c.toNat = 0x2028) || decide (c.toNat = 0x2029) ||
  decide (c.toNat = 0x202F) || decide (c.toNat = 0x205F) || decide (c.toNat = 0x3000)

/-- Go `strings.TrimSpace`: drop whitespace from both ends. -/
def trimSpace (l : List Char) : List Char :=
  ((l.dropWhile isSpaceGo).reverse.dropWhile isSpaceGo).reverse

/-- The token removed by `getType`, Go literal "UNSIGNED". -/
def unsigTok : List Char := "UNSIGNED".toList

/-- Go `strings.Contains(s, "UNSIGNED")`: scan for an occurrence of the token. -/
def containsU : List Char → Bool
  | [] => false
  | c :: rest => unsigTok.isPrefixOf (c :: rest) || containsU rest

/-- Fuel-indexed worker for `removeAllU`. The fuel only serves to make the
recursion structural; `removeAllU` supplies `l.length`, which always suffices
because every step consumes at least one character of the list. -/
def removeAllUFuel : Nat → List Char → List Char
  | 0, l => l
  | _ + 1, [] => []
  | fuel + 1, c :: rest =>
    if unsigTok.isPrefixOf (c :: rest) then
      removeAllUFuel fuel ((c :: rest).drop unsigTok.length)
    else
      c :: removeAllUFuel fuel rest

/-- Go `strings.ReplaceAll(s, "UNSIGNED", "")`: remove every (leftmost,
non-overlapping) occurrence of "UNSIGNED", scanning left to right. -/
def removeAllU (l : List Char) : List Char := removeAllUFuel l.length l

/-- Index of the first occurrence of a character, as in Go `strings.Index`
(for the single ASCII character used here, byte and character positions agree
on whether the index is `0`, and truncation at the first occurrence is the
same cut). -/
def charIdx (target : Char) : List Char → Option Nat
  | [] => none
  | c :: rest => if c = target then some 0 else (charIdx target rest).map (· + 1)

/-- The parenthesis-stripping step of `getType`: Go truncates at the first
occurrence of the character that opens a parenthesized suffix, but only when
its index is strictly positive. -/
def truncParen (l : List Char) : List Char :=
  match charIdx '(' l with
  | none => l
  | some i => if 0 < i then l.take i else l

/-- The full cleaning pipeline of `getType` applied to a raw column type,
in source order: uppercase, remove "UNSIGNED", trim whitespace, truncate at
the first open parenthesis. -/
def cleanOf (s : List Char) : List Char :=
  truncParen (trimSpace (removeAllU (s.map Char.toUpper)))

/-- `isUnsigned` of the source: the uppercased raw type contains "UNSIGNED"
(computed before the removal). -/
def hasUnsigned (s : List Char) : Bool := containsU (s.map Char.toUpper)

/-- `strings.ToUpper(string(w[0])) + w[1:]` of `Camelize`: uppercase the
first character of a segment, keep the rest. -/
def upperFirst : List Char → List Char
  | [] => []
  | c :: rest => c.toUpper :: rest

/-- Go `strings.Split(s, sep)` for a one-character separator: the list of
(possibly empty) segments between occurrences of the separator. -/
def splitOnChar (sep : Char) : List Char → List (List Char)
  | [] => [[]]
  | c :: rest =>
    if c = sep then [] :: splitOnChar sep rest
    else
      match splitOnChar sep rest with
      | [] => [[c]]
      | w :: ws => (c :: w) :: ws

/-- The body of the `for i := range words` loop of `Camelize`: segments at
index `i > 0` have their first character uppercased when non-empty; the
index-0 segment is uppercased only when `capitalised` holds. -/
def procSeg (capitalised : Bool) (p : Nat × List Char) : List Char :=
  if p.1 > 0 ∧ p.2.length > 0 then upperFirst p.2
  else if capitalised ∧ p.1 = 0 ∧ p.2.length > 0 then upperFirst p.2
  else p.2

/-- Apply `procSeg` to each segment together with its index, starting at `i`. -/
def camelWords (capitalised : Bool) (i : Nat) : List (List Char) → List (List Char)
  | [] => []
  | w :: ws => procSeg capitalised (i, w) :: camelWords capitalised (i + 1) ws

/-- `Camelize` of the source: split on the underscore, process each segment
by index, and join the results with no separator. -/
def Camelize (input : List Char) (capitalised : Bool) : List Char :=
  (camelWords capitalised 0 (splitOnChar '_' input)).flatten

/-- `TableDescriptor` of the source. The Go field `Type` is called `Typ`
here because `Type` is reserved in Lean. -/
structure TableDescriptor where
  Field : List Char
  Typ : List Char
  Null : List Char
  Key : List Char
  Default : Option (List Char)
  Extra : List Char
  deriving DecidableEq

def yesLit : List Char := "YES".toList

def textTypes : List (List Char) :=
  ["VARCHAR".toList, "TEXT".toList, "CHAR".toList, "ENUM".toList, "SET".toList,
   "LONGTEXT".toList, "MEDIUMTEXT".toList, "TINYTEXT".toList]

def int32Types : List (List Char) := ["INT".toList, "MEDIUMINT".toList]

def floatTypes : List (List Char) := ["FLOAT".toList, "DOUBLE".toList, "DECIMAL".toList]

def timeTypes : List (List Char) :=
  ["DATE".toList, "DATETIME".toList, "TIMESTAMP".toList, "TIME".toList, "YEAR".toList]

def byteTypes : List (List Char) :=
  ["BLOB".toList, "LONGBLOB".toList, "MEDIUMBLOB".toList, "TINYBLOB".toList,
   "BINARY".toList, "VARBINARY".toList]

def boolTypes : List (List Char) := ["BIT".toList, "BOOL".toList, "BOOLEAN".toList]

/-- The Go fallback literal "interface{}" (braces written as escapes). -/
def ifaceLit : List Char := "interface\x7b\x7d".toList

def byteSeqLit : List Char := "[]byte".toList

/-- The nullable prefix: `getType` writes "*" when the `Null` column marker
is exactly "YES". -/
def starPfx (null : List Char) : List Char := if null = yesLit then ['*'] else []

/-- The unsigned prefix written before the integer base types. -/
def uPfx (b : Bool) : List Char := if b then ['u'] else []

/-- `getType` of the source: clean the raw type, prefix "*" when nullable,
then switch on the cleaned token. The byte-sequence cases and the default
case call `result.Reset()` in the source, discarding the nullable prefix,
which is why they ignore `starPfx` here. -/
def getType (t : TableDescriptor) : List Char :=
  if cleanOf t.Typ ∈ textTypes then starPfx t.Null ++ "string".toList
  else if cleanOf t.Typ = "BIGINT".toList then
    starPfx t.Null ++ uPfx (hasUnsigned t.Typ) ++ "int64".toList
  else if cleanOf t.Typ ∈ int32Types then
    starPfx t.Null ++ uPfx (hasUnsigned t.Typ) ++ "int32".toList
  else if cleanOf t.Typ = "SMALLINT".toList then
    starPfx t.Null ++ uPfx (hasUnsigned t.Typ) ++ "int16".toList
  else if cleanOf t.Typ = "TINYINT".toList then
    starPfx t.Null ++ uPfx (hasUnsigned t.Typ) ++ "int8".toList
  else if cleanOf t.Typ ∈ floatTypes then starPfx t.Null ++ "float64".toList
  else if cleanOf t.Typ ∈ timeTypes then starPfx t.Null ++ "time.Time".toList
  else if cleanOf t.Typ ∈ byteTypes then byteSeqLit
  else if cleanOf t.Typ ∈ boolTypes then starPfx t.Null ++ "bool".toList
  else ifaceLit

/-- `withField` of `CreateStruct`: running maximum of the camelized field
name lengths (initial value 0). -/
def fieldWidth (tt : List TableDescriptor) : Nat :=
  tt.foldl (fun m t => max m (Camelize t.Field true).length) 0

/-- `withType` of `CreateStruct`: running maximum of the resolved type
lengths (initial value 0). -/
def typeWidth (tt : List TableDescriptor) : Nat :=
  tt.foldl (fun m t => max m (getType t).length) 0

/-- Go `%-Ns`: left-align by padding on the right with spaces to width `n`
(no truncation when longer). -/
def padTo (l : List Char) (n : Nat) : List Char := l ++ List.replicate (n - l.length) ' '

/-- The json tag appended when the row carries a third entry. -/
def jsonTag (name : List Char) : List Char :=
  "`json:\"".toList ++ name ++ "\"`".toList

/-- One field line of `CreateStruct`, rendered with the template
`"    %-Ns %-Ms"` and, with json enabled, a tab and the json tag. -/
def lineOf (wF wT : Nat) (withJson : Bool) (t : TableDescriptor) : List Char :=
  "    ".toList ++ padTo (Camelize t.Field true) wF ++ [' '] ++ padTo (getType t) wT ++
    (if withJson then '\t' :: jsonTag (Camelize t.Field false) else [])

/-- The header written by `CreateStruct` (before its newline), containing the
source's literal token "struc". Braces are written as escapes. -/
def headerLine (tableName : List Char) : List Char :=
  "type ".toList ++ Camelize tableName true ++ "Data struc \x7b".toList

/-- `CreateStruct` of the source. The empty-descriptor `panic` is modelled
as `none`; otherwise the full generated text is returned: header line, one
line per column in input order, closing brace. -/
def CreateStruct (tt : List TableDescriptor) (tableName : List Char) (withJson : Bool) :
    Option (List Char) :=
  if tt.length < 1 then none
  else some (headerLine tableName ++ '\n' ::
    (tt.map (fun t => lineOf (fieldWidth tt) (typeWidth tt) withJson t ++ ['\n'])).flatten ++
    ['\x7d'])

/-- Split a text into its lines (Go `strings.Split(s, "\n")` semantics). -/
def splitLines (l : List Char) : List (List Char) := splitOnChar '\n' l

/-- The first line of a text: everything before the first newline. -/
def firstLine (l : List Char) : List Char := l.takeWhile (fun c => c != '\n')

/-- Modelled from the spec (section 4.1), for the refinement claim about
`Camelize`: process the index-0 segment according to the flag and uppercase
the first character of every later segment. -/
def procSegSpec (capitalised : Bool) (p : Nat × List Char) : List Char :=
  if p.1 = 0 then (if capitalised then upperFirst p.2 else p.2) else upperFirst p.2

/-- Modelled from the spec: `procSegSpec` applied to every segment with its
index, starting at `i`. -/
def camelWordsSpec (capitalised : Bool) (i : Nat) : List (List Char) → List (List Char)
  | [] => []
  | w :: ws => procSegSpec capitalised (i, w) :: camelWordsSpec capitalised (i + 1) ws

/-- Modelled from the spec: split on the underscore, process each segment by
index, drop the empty segments, concatenate with no separator. -/
def camelizeSpec (input : List Char) (capitalised : Bool) : List Char :=
  ((camelWordsSpec capitalised 0 (splitOnChar '_' input)).filter
    (fun w => !w.isEmpty)).flatten

/-- Characters in the ASCII uppercase image are fixed points of `toUpper`. -/
theorem upper_fix_of_range (k : Nat) (h1 : 65 ≤ k) (h2 : k ≤ 90) :
    Char.toUpper (Char.ofNat k) = Char.ofNat k := by
  interval_cases k <;> decide

/-- `Char.toUpper` is idempotent. -/
theorem char_toUpper_idem (c : Char) : c.toUpper.toUpper = c.toUpper := by
  by_cases h : c.toNat ≥ 97 ∧ c.toNat ≤ 122
  · have hu : c.toUpper = Char.ofNat (c.toNat - 32) := by
      simp only [Char.toUpper]
      rw [if_pos h]
    rw [hu]
    exact upper_fix_of_range _ (by omega) (by omega)
  · have hu : c.toUpper = c := by
      simp only [Char.toUpper]
      rw [if_neg h]
    rw [hu, hu]

/-- `Char.toUpper` maps no character to the newline. -/
theorem char_toUpper_ne_newline (c : Char) (h : c ≠ '\n') : c.toUpper ≠ '\n' := by
  by_cases hc : c.toNat ≥ 97 ∧ c.toNat ≤ 122
  · have hu : c.toUpper = Char.ofNat (c.toNat - 32) := by
      simp only [Char.toUpper]
      rw [if_pos hc]
    rw [hu]
    have h1 : 65 ≤ c.toNat - 32 := by omega
    have h2 : c.toNat - 32 ≤ 90 := by omega
    generalize c.toNat - 32 = k at h1 h2
    interval_cases k <;> decide
  · have hu : c.toUpper = c := by
      simp only [Char.toUpper]
      rw [if_neg hc]
    rw [hu]; exact h

theorem mem_removeAllUFuel (f : Nat) (l : List Char) (x : Char)
    (h : x ∈ removeAllUFuel f l) : x ∈ l := by
  induction f generalizing l with
  | zero => exact h
  | succ f ih =>
    cases l with
    | nil => exact h
    | cons c rest =>
      rw [removeAllUFuel] at h
      by_cases hp : unsigTok.isPrefixOf (c :: rest)
      · rw [if_pos hp] at h
        exact List.mem_of_mem_drop (ih _ h)
      · rw [if_neg hp] at h
        rcases List.mem_cons.mp h with h | h
        · exact h ▸ List.mem_cons_self c rest
        · exact List.mem_cons_of_mem c (ih _ h)

theorem removeAllUFuel_of_not_contains (f : Nat) (l : List Char)
    (h : containsU l = false) : removeAllUFuel f l = l := by
  induction f generalizing l with
  | zero => rfl
  | succ f ih =>
    cases l with
    | nil => rfl
    | cons c rest =>
      rw [containsU, Bool.or_eq_false_iff] at h
      rw [removeAllUFuel, if_neg (by simp [h.1]), ih rest h.2]

/-- The fuel in `removeAllUFuel` is irrelevant once it covers the list
length, so `removeAllU` computes the full left-to-right removal. -/
theorem removeAllUFuel_congr (f g : Nat) (l : List Char)
    (hf : l.length ≤ f) (hg : l.length ≤ g) :
    removeAllUFuel f l = removeAllUFuel g l := by
  have hlen : unsigTok.length = 8 := by decide
  induction f generalizing g l with
  | zero =>
    have : l = [] := List.length_eq_zero.mp (Nat.le_zero.mp hf)
    subst this
    cases g <;> rfl
  | succ f ih =>
    cases l with
    | nil => cases g <;> rfl
    | cons c rest =>
      cases g with
      | zero => simp at hg
      | succ g =>
        rw [removeAllUFuel, removeAllUFuel]
        by_cases hp : unsigTok.isPrefixOf (c :: rest)
        · rw [if_pos hp, if_pos hp]
          exact ih _ _ (by simp [hlen] at hf ⊢; omega) (by simp [hlen] at hg ⊢; omega)
        · rw [if_neg hp, if_neg hp, ih _ _ (by simpa using hf) (by simpa using hg)]

theorem mem_dropWhile (p : Char → Bool) (l : List Char) (x : Char)
    (h : x ∈ l.dropWhile p) : x ∈ l := by
  induction l with
  | nil => simp at h
  | cons c rest ih =>
    rw [List.dropWhile_cons] at h
    by_cases hp : p c = true
    · rw [if_pos hp] at h
      exact List.mem_cons_of_mem c (ih h)
    · rw [if_neg hp] at h
      exact h

theorem mem_trimSpace (l : List Char) (x : Char) (h : x ∈ trimSpace l) : x ∈ l := by
  unfold trimSpace at h
  rw [List.mem_reverse] at h
  have h2 := mem_dropWhile _ _ _ h
  rw [List.mem_reverse] at h2
  exact mem_dropWhile _ _ _ h2

theorem charIdx_take_none (t : Char) (l : List Char) (i : Nat)
    (h : charIdx t l = some i) : charIdx t (l.take i) = none := by
  induction l generalizing i with
  | nil => simp [charIdx] at h
  | cons c rest ih =>
    rw [charIdx] at h
    by_cases hc : c = t
    · rw [if_pos hc] at h
      injection h with h
      subst h
      simp [charIdx]
    · rw [if_neg hc] at h
      cases hj : charIdx t rest with
      | none => rw [hj] at h; simp at h
      | some j =>
        rw [hj] at h
        have hji : j + 1 = i := by simpa using h
        subst hji
        rw [List.take_succ_cons, charIdx, if_neg hc, ih j hj]
        rfl

theorem truncParen_of_none (l : List Char) (h : charIdx '(' l = none) :
    truncParen l = l := by
  unfold truncParen
  rw [h]

theorem truncParen_of_some (l : List Char) (i : Nat) (h : charIdx '(' l = some i) :
    truncParen l = if 0 < i then l.take i else l := by
  unfold truncParen
  rw [h]

theorem truncParen_idem (l : List Char) : truncParen (truncParen l) = truncParen l := by
  cases hi : charIdx '(' l with
  | none => rw [truncParen_of_none l hi, truncParen_of_none l hi]
  | some i =>
    rw [truncParen_of_some l i hi]
    by_cases h0 : 0 < i
    · rw [if_pos h0, truncParen_of_none _ (charIdx_take_none '(' l i hi)]
    · rw [if_neg h0, truncParen_of_some l i hi, if_neg h0]

theorem mem_truncParen (l : List Char) (x : Char) (h : x ∈ truncParen l) : x ∈ l := by
  cases hi : charIdx '(' l with
  | none => rw [truncParen_of_none l hi] at h; exact h
  | some i =>
    rw [truncParen_of_some l i hi] at h
    by_cases h0 : 0 < i
    · rw [if_pos h0] at h
      exact List.mem_of_mem_take h
    · rw [if_neg h0] at h
      exact h

theorem map_toUpper_eq_self (l : List Char) (h : ∀ x ∈ l, x.toUpper = x) :
    l.map Char.toUpper = l := by
  induction l with
  | nil => rfl
  | cons c rest ih =>
    rw [List.map_cons, h c (List.mem_cons_self c rest),
      ih (fun x hx => h x (List.mem_cons_of_mem c hx))]

/-- Every character of a cleaned type string is a fixed point of `toUpper`:
the cleaning pipeline only removes characters from the uppercased input. -/
theorem cleanOf_upperFixed (s : List Char) (x : Char) (h : x ∈ cleanOf s) :
    x.toUpper = x := by
  unfold cleanOf at h
  have h1 := mem_truncParen _ _ h
  have h2 := mem_trimSpace _ _ h1
  have h3 := mem_removeAllUFuel _ _ _ h2
  rcases List.mem_map.mp h3 with ⟨c, _, hc⟩
  rw [← hc]
  exact char_toUpper_idem c

/-- C2 (counterexample): the cleaning step of `getType` is not idempotent on
every input. On "INT (3)" the first pass trims before truncating at the
parenthesis, leaving the trailing space "INT ", and a second pass trims it
away to "INT". -/
theorem c2_counterexample :
    cleanOf (cleanOf "INT (3)".toList) ≠ cleanOf "INT (3)".toList := by decide

/-- C2 (amended): the cleaning step (uppercase, remove "UNSIGNED", trim,
truncate at the first parenthesis) is idempotent on every input whose
once-cleaned string contains no "UNSIGNED" occurrence and carries no
surrounding whitespace. (Truncation can expose trailing whitespace, and
removing "UNSIGNED" can splice together a new occurrence; those are the only
failures.) -/
theorem c2_cleaning_idem (s : List Char)
    (hU : containsU (cleanOf s) = false)
    (hT : trimSpace (cleanOf s) = cleanOf s) :
    cleanOf (cleanOf s) = cleanOf s := by
  have hup : (cleanOf s).map Char.toUpper = cleanOf s :=
    map_toUpper_eq_self _ (cleanOf_upperFixed s)
  have h1 : cleanOf (cleanOf s) =
      truncParen (trimSpace (removeAllU ((cleanOf s).map Char.toUpper))) := rfl
  have h2 : removeAllU (cleanOf s) = cleanOf s :=
    removeAllUFuel_of_not_contains _ _ hU
  rw [h1, hup, h2, hT]
  exact truncParen_idem (trimSpace (removeAllU (s.map Char.toUpper)))

/-- C2 (witness): the amended idempotence at the concrete column type
"BIGINT(20) UNSIGNED". -/
theorem c2_witness :
    containsU (cleanOf "BIGINT(20) UNSIGNED".toList) = false ∧
    trimSpace (cleanOf "BIGINT(20) UNSIGNED".toList) = cleanOf "BIGINT(20) UNSIGNED".toList ∧
    cleanOf (cleanOf "BIGINT(20) UNSIGNED".toList) = cleanOf "BIGINT(20) UNSIGNED".toList :=
  ⟨by decide, by decide, c2_cleaning_idem _ (by decide) (by decide)⟩

theorem procSeg_pos (cap : Bool) (i : Nat) (w : List Char) (h : 0 < i) :
    procSeg cap (i, w) = upperFirst w := by
  cases w with
  | nil =>
    unfold procSeg
    rw [if_neg (by simp), if_neg (by simp [Nat.pos_iff_ne_zero.mp h])]
    rfl
  | cons c r =>
    unfold procSeg
    rw [if_pos (by simp [h])]

theorem procSeg_zero_false (w : List Char) : procSeg false (0, w) = w := by
  unfold procSeg
  rw [if_neg (by simp), if_neg (by simp)]

theorem procSeg_zero_true (w : List Char) : procSeg true (0, w) = upperFirst w := by
  cases w with
  | nil =>
    unfold procSeg
    rw [if_neg (by simp), if_neg (by simp)]
    rfl
  | cons c r =>
    unfold procSeg
    rw [if_neg (by simp), if_pos (by simp)]

theorem camelWords_pos (cap : Bool) (i : Nat) (ws : List (List Char)) (h : 0 < i) :
    camelWords cap i ws = ws.map upperFirst := by
  induction ws generalizing i with
  | nil => rfl
  | cons w rest ih =>
    rw [camelWords, procSeg_pos cap i w h, List.map_cons, ih (i + 1) (by omega)]

/-- The first character of a concatenation of `upperFirst`-processed segments
is a fixed point of `toUpper`. -/
theorem head_fix_flatten_upperFirst (ws : List (List Char)) :
    ((ws.map upperFirst).flatten).head? = (((ws.map upperFirst).flatten).head?).map Char.toUpper := by
  induction ws with
  | nil => rfl
  | cons w rest ih =>
    cases w with
    | nil => simpa [upperFirst] using ih
    | cons c r =>
      simp only [List.map_cons, upperFirst, List.flatten_cons, List.cons_append,
        List.head?_cons, Option.map_some']
      rw [char_toUpper_idem]

theorem splitOnChar_ne_nil (sep : Char) (l : List Char) : splitOnChar sep l ≠ [] := by
  cases l with
  | nil => simp [splitOnChar]
  | cons c rest =>
    unfold splitOnChar
    by_cases hc : c = sep
    · simp [hc]
    · rw [if_neg hc]
      cases splitOnChar sep rest <;> simp

theorem procSeg_eq_procSegSpec (cap : Bool) (p : Nat × List Char) :
    procSeg cap p = procSegSpec cap p := by
  obtain ⟨i, w⟩ := p
  cases i with
  | zero =>
    cases cap with
    | false => rw [procSeg_zero_false]; rfl
    | true => rw [procSeg_zero_true]; rfl
  | succ j =>
    rw [procSeg_pos cap (j + 1) w (by omega)]
    rfl

theorem camelWords_eq_spec (cap : Bool) (i : Nat) (ws : List (List Char)) :
    camelWords cap i ws = camelWordsSpec cap i ws := by
  induction ws generalizing i with
  | nil => rfl
  | cons w rest ih =>
    rw [camelWords, camelWordsSpec, procSeg_eq_procSegSpec, ih (i + 1)]

theorem flatten_filter_nonempty (l : List (List Char)) :
    (l.filter (fun w => !w.isEmpty)).flatten = l.flatten := by
  induction l with
  | nil => rfl
  | cons w rest ih =>
    cases w with
    | nil => simpa using ih
    | cons c r => simpa using ih

/-- C6: `Camelize` splits on underscores, capitalizes the first character of
every non-empty segment after the first, capitalizes the first segment only
when the flag is set, drops empty segments, and concatenates; it agrees with
the spec-side description and satisfies the four quoted edge cases. -/
theorem c6_camelize_spec :
    (∀ (s : List Char) (cap : Bool), Camelize s cap = camelizeSpec s cap) ∧
    Camelize "".toList false = "".toList ∧
    Camelize "a".toList true = "A".toList ∧
    Camelize "a__b".toList true = "AB".toList ∧
    Camelize "_id".toList true = "Id".toList :=
  ⟨fun s cap => by
      unfold Camelize camelizeSpec
      rw [camelWords_eq_spec, flatten_filter_nonempty],
    by decide, by decide, by decide, by decide⟩

/-- C7: the two flag values of `Camelize` produce outputs that differ at most
in the casing of the first output character (the first character of the
first non-empty segment); every later character agrees. -/
theorem c7_camelize_flag_first_char (s : List Char) :
    (Camelize s true).head? = ((Camelize s false).head?).map Char.toUpper ∧
    (Camelize s true).drop 1 = (Camelize s false).drop 1 := by
  obtain ⟨w0, rest, hsplit⟩ := List.exists_cons_of_ne_nil (splitOnChar_ne_nil '_' s)
  unfold Camelize
  rw [hsplit, camelWords, camelWords, camelWords_pos true 1 rest (by omega),
    camelWords_pos false 1 rest (by omega), procSeg_zero_true, procSeg_zero_false,
    List.flatten_cons, List.flatten_cons]
  cases w0 with
  | nil =>
    refine ⟨?_, rfl⟩
    simpa [upperFirst] using head_fix_flatten_upperFirst rest
  | cons c r =>
    exact ⟨by simp [upperFirst], by simp [upperFirst]⟩

/-- C3: `CreateStruct` fails (the source panics, modelled as `none`) exactly
when the descriptor list is empty, for every table name and json flag; on a
non-empty list it always returns generated text. -/
theorem c3_empty_descriptor_fails :
    ∀ (tt : List TableDescriptor) (tableName : List Char) (withJson : Bool),
    CreateStruct tt tableName withJson = none ↔ tt = [] := by
  intro tt tableName withJson
  unfold CreateStruct
  by_cases h : tt.length < 1
  · rw [if_pos h]
    simp [List.length_eq_zero.mp (Nat.lt_one_iff.mp h)]
  · rw [if_neg h]
    constructor
    · intro hx
      exact absurd hx (by simp)
    · intro hx
      subst hx
      simp at h

/-- The categories whose branch of the `getType` switch keeps the builder
content, so the nullable prefix survives. -/
def wrapTypes : List (List Char) :=
  textTypes ++ ["BIGINT".toList] ++ int32Types ++ ["SMALLINT".toList, "TINYINT".toList] ++
    floatTypes ++ timeTypes ++ boolTypes

/-- All recognized cleaned type tokens of the `getType` switch. -/
def knownTypes : List (List Char) := wrapTypes ++ byteTypes

/-- The five integer category tokens. -/
def intTypes : List (List Char) :=
  ["BIGINT".toList, "INT".toList, "MEDIUMINT".toList, "SMALLINT".toList, "TINYINT".toList]

/-- On every non-reset category, a "YES" null marker makes the resolved type
start with the pointer. -/
theorem getType_star (t : TableDescriptor) (hN : t.Null = yesLit)
    (hm : cleanOf t.Typ ∈ wrapTypes) : (getType t).head? = some '*' := by
  generalize hc : cleanOf t.Typ = c at hm
  rw [wrapTypes] at hm
  fin_cases hm
  all_goals unfold getType
  all_goals rw [hc, hN]
  all_goals simp [starPfx, textTypes, int32Types, floatTypes, timeTypes, byteTypes, boolTypes]

/-- On the byte-sequence categories, `getType` resets the builder: the
result is the plain byte-sequence type whatever the null marker. -/
theorem getType_byte (t : TableDescriptor)
    (hm : cleanOf t.Typ ∈ byteTypes) : getType t = byteSeqLit := by
  generalize hc : cleanOf t.Typ = c at hm
  rw [byteTypes] at hm
  fin_cases hm
  all_goals unfold getType
  all_goals rw [hc]
  all_goals simp [textTypes, int32Types, floatTypes, timeTypes, byteTypes, boolTypes]

/-- On an unrecognized cleaned token, `getType` resets the builder and
returns the generic placeholder, whatever the null marker. -/
theorem getType_fallback (t : TableDescriptor)
    (hm : cleanOf t.Typ ∉ knownTypes) : getType t = ifaceLit := by
  have hw : cleanOf t.Typ ∉ wrapTypes := fun hx => hm (List.mem_append_left _ hx)
  have hb : cleanOf t.Typ ∉ byteTypes := fun hx => hm (List.mem_append_right _ hx)
  have h1 : cleanOf t.Typ ∉ textTypes := fun hx => hw (by rw [wrapTypes]; simp [hx])
  have h2 : ¬cleanOf t.Typ = "BIGINT".toList := fun hx => hw (by rw [wrapTypes]; simp [hx])
  have h3 : cleanOf t.Typ ∉ int32Types := fun hx => hw (by rw [wrapTypes]; simp [hx])
  have h4 : ¬cleanOf t.Typ = "SMALLINT".toList := fun hx => hw (by rw [wrapTypes]; simp [hx])
  have h5 : ¬cleanOf t.Typ = "TINYINT".toList := fun hx => hw (by rw [wrapTypes]; simp [hx])
  have h6 : cleanOf t.Typ ∉ floatTypes := fun hx => hw (by rw [wrapTypes]; simp [hx])
  have h7 : cleanOf t.Typ ∉ timeTypes := fun hx => hw (by rw [wrapTypes]; simp [hx])
  have h8 : cleanOf t.Typ ∉ boolTypes := fun hx => hw (by rw [wrapTypes]; simp [hx])
  unfold getType
  rw [if_neg h1, if_neg h2, if_neg h3, if_neg h4, if_neg h5, if_neg h6, if_neg h7,
    if_neg hb, if_neg h8]

theorem star_not_mem_uPfx (b : Bool) : '*' ∉ uPfx b := by
  cases b <;> decide

/-- With a null marker other than "YES" the prefix is empty. -/
theorem starPfx_of_ne (null : List Char) (h : null ≠ yesLit) : starPfx null = [] := by
  unfold starPfx
  rw [if_neg h]

/-- With a null marker other than "YES", no branch of `getType` ever emits
the pointer character. -/
theorem getType_no_star (t : TableDescriptor) (hN : t.Null ≠ yesLit) :
    '*' ∉ getType t := by
  unfold getType
  split_ifs
  all_goals simp [starPfx_of_ne t.Null hN, star_not_mem_uPfx, byteSeqLit, ifaceLit]

/-- C1 (counterexample): a nullable BLOB column resolves to the plain byte
sequence, not to the claimed optional byte sequence, because the source
resets the string builder in the byte-sequence branch. -/
theorem c1_counterexample :
    (⟨"avatar".toList, "BLOB".toList, yesLit, [], none, []⟩ : TableDescriptor).Null = yesLit ∧
    getType ⟨"avatar".toList, "BLOB".toList, yesLit, [], none, []⟩ = "[]byte".toList ∧
    getType ⟨"avatar".toList, "BLOB".toList, yesLit, [], none, []⟩ ≠ "*[]byte".toList := by
  decide

/-- C1 (amended): for a column with null marker "YES" the resolved type
carries the pointer wrapper on every text, integer, float, temporal and
boolean category; on the byte-sequence categories and on the unrecognized
fallback the builder is reset, so the resolved type is the plain byte
sequence or the plain placeholder, without the wrapper. -/
theorem c1_nullable_wrapper :
    (∀ t : TableDescriptor, t.Null = yesLit → cleanOf t.Typ ∈ wrapTypes →
      (getType t).head? = some '*') ∧
    (∀ t : TableDescriptor, t.Null = yesLit → cleanOf t.Typ ∈ byteTypes →
      getType t = byteSeqLit) ∧
    (∀ t : TableDescriptor, t.Null = yesLit → cleanOf t.Typ ∉ knownTypes →
      getType t = ifaceLit) :=
  ⟨fun t h hm => getType_star t h hm,
   fun t _ hm => getType_byte t hm,
   fun t _ hm => getType_fallback t hm⟩

/-- C1 (witness): the amended statement at a nullable VARCHAR, a nullable
BLOB and a nullable unrecognized GEOMETRY column. -/
theorem c1_witness :
    ((getType ⟨"name".toList, "VARCHAR(40)".toList, yesLit, [], none, []⟩).head? = some '*') ∧
    (getType ⟨"avatar2".toList, "LONGBLOB".toList, yesLit, [], none, []⟩ = byteSeqLit) ∧
    (getType ⟨"shape".toList, "GEOMETRY".toList, yesLit, [], none, []⟩ = ifaceLit) :=
  ⟨c1_nullable_wrapper.1 _ rfl (by decide),
   c1_nullable_wrapper.2.1 _ rfl (by decide),
   c1_nullable_wrapper.2.2 _ rfl (by decide)⟩

/-- C9: an unrecognized cleaned type token is not an error: `getType` (a
total function of its descriptor) returns the generic placeholder. -/
theorem c9_unrecognized_is_placeholder :
    ∀ t : TableDescriptor, cleanOf t.Typ ∉ knownTypes → getType t = ifaceLit :=
  fun t hm => getType_fallback t hm

/-- C9 (witness): the placeholder at the concrete unrecognized column type
"GEOMETRY". -/
theorem c9_witness :
    cleanOf "GEOMETRY".toList ∉ knownTypes ∧
    getType ⟨"shape2".toList, "GEOMETRY".toList, "NO".toList, [], none, []⟩ = ifaceLit :=
  ⟨by decide, c9_unrecognized_is_placeholder _ (by decide)⟩

/-- C10: `getType` treats a column as nullable exactly on the
case-sensitive marker "YES": with any other null marker no resolved type
contains the pointer character, and with "YES" every non-reset category
resolves to a pointer-prefixed type. -/
theorem c10_null_marker_case_sensitive :
    (∀ t : TableDescriptor, t.Null ≠ yesLit → '*' ∉ getType t) ∧
    (∀ t : TableDescriptor, t.Null = yesLit → cleanOf t.Typ ∈ wrapTypes →
      (getType t).head? = some '*') :=
  ⟨fun t h => getType_no_star t h, fun t hN hm => getType_star t hN hm⟩

/-- C10 (witness): no pointer for the markers "yes", "Yes", "NO" and the
empty string on an INT column; the pointer appears with the exact marker
"YES". -/
theorem c10_witness :
    ('*' ∉ getType ⟨"a".toList, "INT".toList, "yes".toList, [], none, []⟩) ∧
    ('*' ∉ getType ⟨"a".toList, "INT".toList, "Yes".toList, [], none, []⟩) ∧
    ('*' ∉ getType ⟨"a".toList, "INT".toList, "NO".toList, [], none, []⟩) ∧
    ('*' ∉ getType ⟨"a".toList, "INT".toList, [], [], none, []⟩) ∧
    ((getType ⟨"a".toList, "INT".toList, "YES".toList, [], none, []⟩).head? = some '*') :=
  ⟨c10_null_marker_case_sensitive.1 _ (by decide),
   c10_null_marker_case_sensitive.1 _ (by decide),
   c10_null_marker_case_sensitive.1 _ (by decide),
   c10_null_marker_case_sensitive.1 _ (by decide),
   c10_null_marker_case_sensitive.2 _ rfl (by decide)⟩

/-- C8: on each integer category the resolved type of a column carrying the
UNSIGNED marker differs from the same column without the marker only by the
inserted "u" prefix; on the float categories the resolved types coincide
regardless of the marker. -/
theorem c8_unsigned_marker :
    (∀ t t' : TableDescriptor, cleanOf t.Typ ∈ intTypes →
      cleanOf t'.Typ = cleanOf t.Typ → t'.Null = t.Null →
      hasUnsigned t.Typ = true → hasUnsigned t'.Typ = false →
      ∃ body, getType t' = starPfx t.Null ++ body ∧
        getType t = starPfx t.Null ++ 'u' :: body) ∧
    (∀ t t' : TableDescriptor, cleanOf t.Typ ∈ floatTypes →
      cleanOf t'.Typ = cleanOf t.Typ → t'.Null = t.Null →
      getType t = getType t') := by
  constructor
  · intro t t' hm heq hN hu hu'
    simp only [intTypes, List.mem_cons, List.not_mem_nil, or_false] at hm
    rcases hm with h|h|h|h|h
    · have h' : cleanOf t'.Typ = "BIGINT".toList := by rw [heq, h]
      refine ⟨"int64".toList, ?_, ?_⟩
      · unfold getType
        rw [h', hN, hu']
        simp [textTypes, uPfx]
      · unfold getType
        rw [h, hu]
        simp [textTypes, uPfx]
    · have h' : cleanOf t'.Typ = "INT".toList := by rw [heq, h]
      refine ⟨"int32".toList, ?_, ?_⟩
      · unfold getType
        rw [h', hN, hu']
        simp [textTypes, int32Types, uPfx]
      · unfold getType
        rw [h, hu]
        simp [textTypes, int32Types, uPfx]
    · have h' : cleanOf t'.Typ = "MEDIUMINT".toList := by rw [heq, h]
      refine ⟨"int32".toList, ?_, ?_⟩
      · unfold getType
        rw [h', hN, hu']
        simp [textTypes, int32Types, uPfx]
      · unfold getType
        rw [h, hu]
        simp [textTypes, int32Types, uPfx]
    · have h' : cleanOf t'.Typ = "SMALLINT".toList := by rw [heq, h]
      refine ⟨"int16".toList, ?_, ?_⟩
      · unfold getType
        rw [h', hN, hu']
        simp [textTypes, int32Types, uPfx]
      · unfold getType
        rw [h, hu]
        simp [textTypes, int32Types, uPfx]
    · have h' : cleanOf t'.Typ = "TINYINT".toList := by rw [heq, h]
      refine ⟨"int8".toList, ?_, ?_⟩
      · unfold getType
        rw [h', hN, hu']
        simp [textTypes, int32Types, uPfx]
      · unfold getType
        rw [h, hu]
        simp [textTypes, int32Types, uPfx]
  · intro t t' hm heq hN
    simp only [floatTypes, List.mem_cons, List.not_mem_nil, or_false] at hm
    rcases hm with h|h|h
    all_goals have h' : cleanOf t'.Typ = cleanOf t.Typ := heq
    all_goals rw [h] at h'
    all_goals unfold getType
    all_goals rw [h, h', hN]
    all_goals simp [textTypes, int32Types, floatTypes]

/-- C8 (witness): the unsigned/signed comparison at concrete BIGINT columns
and the float indifference at concrete FLOAT columns. -/
theorem c8_witness :
    (∃ body,
      getType ⟨"id".toList, "BIGINT".toList, "NO".toList, [], none, []⟩ =
        starPfx "NO".toList ++ body ∧
      getType ⟨"id".toList, "BIGINT UNSIGNED".toList, "NO".toList, [], none, []⟩ =
        starPfx "NO".toList ++ 'u' :: body) ∧
    getType ⟨"p".toList, "FLOAT UNSIGNED".toList, yesLit, [], none, []⟩ =
      getType ⟨"p".toList, "FLOAT".toList, yesLit, [], none, []⟩ :=
  ⟨c8_unsigned_marker.1
      ⟨"id".toList, "BIGINT UNSIGNED".toList, "NO".toList, [], none, []⟩
      ⟨"id".toList, "BIGINT".toList, "NO".toList, [], none, []⟩
      (by decide) (by decide) (by decide) (by decide) (by decide),
   c8_unsigned_marker.2
      ⟨"p".toList, "FLOAT UNSIGNED".toList, yesLit, [], none, []⟩
      ⟨"p".toList, "FLOAT".toList, yesLit, [], none, []⟩
      (by decide) (by decide) (by decide)⟩

theorem mem_splitOnChar (sep : Char) (l : List Char) (w : List Char)
    (hw : w ∈ splitOnChar sep l) (x : Char) (hx : x ∈ w) : x ∈ l := by
  induction l generalizing w with
  | nil =>
    simp [splitOnChar] at hw
    subst hw
    simp at hx
  | cons c rest ih =>
    unfold splitOnChar at hw
    by_cases hc : c = sep
    · rw [if_pos hc] at hw
      rcases List.mem_cons.mp hw with h | h
      · subst h; simp at hx
      · exact List.mem_cons_of_mem c (ih w h hx)
    · rw [if_neg hc] at hw
      obtain ⟨w0, ws, hsw⟩ := List.exists_cons_of_ne_nil (splitOnChar_ne_nil sep rest)
      rw [hsw] at hw
      rcases List.mem_cons.mp hw with h | h
      · subst h
        rcases List.mem_cons.mp hx with h | h
        · exact h ▸ List.mem_cons_self c rest
        · exact List.mem_cons_of_mem c (ih w0 (hsw ▸ List.mem_cons_self w0 ws) h)
      · exact List.mem_cons_of_mem c (ih w (hsw ▸ List.mem_cons_of_mem w0 h) hx)

theorem newline_not_mem_upperFirst (w : List Char) (h : '\n' ∉ w) : '\n' ∉ upperFirst w := by
  cases w with
  | nil => simp [upperFirst]
  | cons c r =>
    intro hx
    rcases List.mem_cons.mp hx with hx | hx
    · exact char_toUpper_ne_newline c (fun hc => h (hc ▸ List.mem_cons_self c r)) hx.symm
    · exact h (List.mem_cons_of_mem c hx)

theorem newline_not_mem_procSeg (cap : Bool) (i : Nat) (w : List Char)
    (h : '\n' ∉ w) : '\n' ∉ procSeg cap (i, w) := by
  unfold procSeg
  split_ifs with h1 h2
  · exact newline_not_mem_upperFirst w h
  · exact newline_not_mem_upperFirst w h
  · exact h

theorem mem_camelWords (cap : Bool) (i : Nat) (ws : List (List Char)) (v : List Char)
    (hv : v ∈ camelWords cap i ws) : ∃ j w, w ∈ ws ∧ v = procSeg cap (j, w) := by
  induction ws generalizing i with
  | nil => simp [camelWords] at hv
  | cons w rest ih =>
    rw [camelWords] at hv
    rcases List.mem_cons.mp hv with h | h
    · exact ⟨i, w, List.mem_cons_self w rest, h⟩
    · obtain ⟨j, w1, hw1, hv1⟩ := ih (i + 1) h
      exact ⟨j, w1, List.mem_cons_of_mem w hw1, hv1⟩

theorem newline_not_mem_Camelize (s : List Char) (cap : Bool) (h : '\n' ∉ s) :
    '\n' ∉ Camelize s cap := by
  intro hx
  unfold Camelize at hx
  obtain ⟨v, hv, hxv⟩ := List.mem_flatten.mp hx
  obtain ⟨j, w, hw, hvw⟩ := mem_camelWords cap 0 _ v hv
  subst hvw
  have hnw : '\n' ∉ w := fun hc => h (mem_splitOnChar '_' s w hw '\n' hc)
  exact newline_not_mem_procSeg cap j w hnw hxv

theorem newline_not_mem_starPfx (n : List Char) : '\n' ∉ starPfx n := by
  unfold starPfx
  split <;> decide

theorem newline_not_mem_uPfx (b : Bool) : '\n' ∉ uPfx b := by
  unfold uPfx
  split <;> decide

theorem newline_not_mem_getType (t : TableDescriptor) : '\n' ∉ getType t := by
  unfold getType
  split_ifs
  all_goals simp [List.mem_append, newline_not_mem_starPfx, newline_not_mem_uPfx,
    byteSeqLit, ifaceLit]

theorem newline_not_mem_padTo (l : List Char) (n : Nat) (h : '\n' ∉ l) :
    '\n' ∉ padTo l n := by
  intro hx
  rcases List.mem_append.mp hx with hx | hx
  · exact h hx
  · simp at hx

theorem newline_not_mem_lineOf (wF wT : Nat) (withJson : Bool) (t : TableDescriptor)
    (h : '\n' ∉ t.Field) : '\n' ∉ lineOf wF wT withJson t := by
  intro hx
  unfold lineOf at hx
  rcases List.mem_append.mp hx with hx | hx
  · rcases List.mem_append.mp hx with hx | hx
    · rcases List.mem_append.mp hx with hx | hx
      · rcases List.mem_append.mp hx with hx | hx
        · simp at hx
        · exact newline_not_mem_padTo _ _ (newline_not_mem_Camelize t.Field true h) hx
      · simp at hx
    · exact newline_not_mem_padTo _ _ (newline_not_mem_getType t) hx
  · rcases hj : withJson with _ | _
    · rw [hj] at hx; simp at hx
    · rw [hj] at hx
      simp only [if_pos rfl] at hx
      rcases List.mem_cons.mp hx with hx | hx
      · simp at hx
      · unfold jsonTag at hx
        rcases List.mem_append.mp hx with hx | hx
        · rcases List.mem_append.mp hx with hx | hx
          · simp at hx
          · exact newline_not_mem_Camelize t.Field false h hx
        · simp at hx

theorem newline_not_mem_headerLine (tableName : List Char) (h : '\n' ∉ tableName) :
    '\n' ∉ headerLine tableName := by
  intro hx
  unfold headerLine at hx
  rcases List.mem_append.mp hx with hx | hx
  · rcases List.mem_append.mp hx with hx | hx
    · simp at hx
    · exact newline_not_mem_Camelize tableName true h hx
  · simp at hx

theorem takeWhile_append_newline (a b : List Char) (h : '\n' ∉ a) :
    (a ++ '\n' :: b).takeWhile (fun c => c != '\n') = a := by
  induction a with
  | nil => simp
  | cons c r ih =>
    have hc : c ≠ '\n' := fun hx => h (hx ▸ List.mem_cons_self c r)
    simp only [List.cons_append, List.takeWhile_cons, bne_iff_ne, ne_eq, hc,
      not_false_eq_true, if_pos]
    rw [ih (fun hx => h (List.mem_cons_of_mem c hx))]

theorem splitOnChar_append_cons (sep : Char) (a b : List Char) (h : sep ∉ a) :
    splitOnChar sep (a ++ sep :: b) = a :: splitOnChar sep b := by
  induction a with
  | nil => simp [splitOnChar]
  | cons c r ih =>
    have hc : c ≠ sep := fun hx => h (hx ▸ List.mem_cons_self c r)
    rw [List.cons_append]
    conv_lhs => rw [splitOnChar]
    rw [if_neg hc, ih (fun hx => h (List.mem_cons_of_mem c hx))]

theorem splitOnChar_of_not_mem (sep : Char) (a : List Char) (h : sep ∉ a) :
    splitOnChar sep a = [a] := by
  induction a with
  | nil => rfl
  | cons c r ih =>
    have hc : c ≠ sep := fun hx => h (hx ▸ List.mem_cons_self c r)
    unfold splitOnChar
    rw [if_neg hc, ih (fun hx => h (List.mem_cons_of_mem c hx))]

theorem splitOnChar_block (xs : List (List Char)) (z : List Char)
    (hxs : ∀ x ∈ xs, '\n' ∉ x) (hz : '\n' ∉ z) :
    splitOnChar '\n' ((xs.map (fun x => x ++ ['\n'])).flatten ++ z) = xs ++ [z] := by
  induction xs with
  | nil => simpa using splitOnChar_of_not_mem '\n' z hz
  | cons x rest ih =>
    have hx : '\n' ∉ x := hxs x (List.mem_cons_self x rest)
    rw [List.map_cons, List.flatten_cons]
    simp only [List.append_assoc, List.singleton_append, List.cons_append]
    rw [splitOnChar_append_cons '\n' x _ hx]
    simp only [List.nil_append]
    rw [ih (fun y hy => hxs y (List.mem_cons_of_mem x hy))]

/-- C4: for a non-empty descriptor list the first line of the generated text
is exactly `type <PascalName>Data struc` followed by the opening brace —
with the source's literal token "struc", not the Go keyword, so the header
is not a valid Go struct declaration. (Table names are assumed free of
newline characters.) -/
theorem c4_header_struc_typo (tt : List TableDescriptor) (tableName : List Char)
    (withJson : Bool) (hne : tt ≠ []) (hN : '\n' ∉ tableName) :
    ∃ out, CreateStruct tt tableName withJson = some out ∧
      firstLine out = "type ".toList ++ Camelize tableName true ++ "Data struc \x7b".toList := by
  have hlen : ¬tt.length < 1 := by
    cases tt with
    | nil => exact absurd rfl hne
    | cons a l => simp
  refine ⟨headerLine tableName ++ '\n' ::
      (tt.map (fun t => lineOf (fieldWidth tt) (typeWidth tt) withJson t ++ ['\n'])).flatten ++
      ['\x7d'], ?_, ?_⟩
  · unfold CreateStruct
    rw [if_neg hlen]
  · unfold firstLine
    simp only [List.append_assoc, List.cons_append]
    rw [takeWhile_append_newline _ _ (newline_not_mem_headerLine tableName hN)]
    rfl

/-- C4 (witness): the header of the generated text for a concrete
one-column table "users". -/
theorem c4_witness :
    ∃ out,
      CreateStruct [⟨"id".toList, "INT".toList, "NO".toList, [], none, []⟩]
        "users".toList true = some out ∧
      firstLine out =
        "type ".toList ++ Camelize "users".toList true ++ "Data struc \x7b".toList :=
  c4_header_struc_typo _ _ _ (by decide) (by decide)

/-- C5: for a non-empty list of `n` descriptors the generated text has
exactly `n + 2` lines — the header, one line per input descriptor in input
order, and the closing brace. (Identifiers are assumed free of newline
characters.) -/
theorem c5_line_structure (tt : List TableDescriptor) (tableName : List Char)
    (withJson : Bool) (hne : tt ≠ []) (hN : '\n' ∉ tableName)
    (hF : ∀ t ∈ tt, '\n' ∉ t.Field) :
    ∃ out, CreateStruct tt tableName withJson = some out ∧
      splitLines out = headerLine tableName ::
        (tt.map (fun t => lineOf (fieldWidth tt) (typeWidth tt) withJson t) ++ [['\x7d']]) ∧
      (splitLines out).length = tt.length + 2 := by
  have hlen : ¬tt.length < 1 := by
    cases tt with
    | nil => exact absurd rfl hne
    | cons a l => simp
  have hxs : ∀ x ∈ tt.map (fun t => lineOf (fieldWidth tt) (typeWidth tt) withJson t),
      '\n' ∉ x := by
    intro x hx
    obtain ⟨t, ht, rfl⟩ := List.mem_map.mp hx
    exact newline_not_mem_lineOf _ _ _ t (hF t ht)
  have hsplit : splitLines (headerLine tableName ++ '\n' ::
      (tt.map (fun t => lineOf (fieldWidth tt) (typeWidth tt) withJson t ++ ['\n'])).flatten ++
      ['\x7d']) = headerLine tableName ::
        (tt.map (fun t => lineOf (fieldWidth tt) (typeWidth tt) withJson t) ++ [['\x7d']]) := by
    unfold splitLines
    simp only [List.append_assoc, List.cons_append]
    rw [splitOnChar_append_cons '\n' _ _ (newline_not_mem_headerLine tableName hN)]
    have hmm : (tt.map (fun t => lineOf (fieldWidth tt) (typeWidth tt) withJson t ++ ['\n'])).flatten =
        ((tt.map (fun t => lineOf (fieldWidth tt) (typeWidth tt) withJson t)).map
          (fun x => x ++ ['\n'])).flatten := by
      rw [List.map_map]
      rfl
    rw [hmm, splitOnChar_block _ _ hxs (by decide)]
  refine ⟨headerLine tableName ++ '\n' ::
      (tt.map (fun t => lineOf (fieldWidth tt) (typeWidth tt) withJson t ++ ['\n'])).flatten ++
      ['\x7d'], ?_, ?_, ?_⟩
  · unfold CreateStruct
    rw [if_neg hlen]
  · exact hsplit
  · rw [hsplit]
    simp

/-- C5 (witness): the line structure at a concrete two-column table. -/
theorem c5_witness :
    ∃ out,
      CreateStruct
        [⟨"id".toList, "INT".toList, "NO".toList, [], none, []⟩,
         ⟨"user_name".toList, "VARCHAR(255)".toList, "YES".toList, [], none, []⟩]
        "users".toList true = some out ∧
      splitLines out = headerLine "users".toList ::
        (([⟨"id".toList, "INT".toList, "NO".toList, [], none, []⟩,
           ⟨"user_name".toList, "VARCHAR(255)".toList, "YES".toList, [], none, []⟩] :
            List TableDescriptor).map
          (fun t => lineOf
            (fieldWidth [⟨"id".toList, "INT".toList, "NO".toList, [], none, []⟩,
              ⟨"user_name".toList, "VARCHAR(255)".toList, "YES".toList, [], none, []⟩])
            (typeWidth [⟨"id".toList, "INT".toList, "NO".toList, [], none, []⟩,
              ⟨"user_name".toList, "VARCHAR(255)".toList, "YES".toList, [], none, []⟩])
            true t) ++ [['\x7d']]) ∧
      (splitLines out).length =
        ([⟨"id".toList, "INT".toList, "NO".toList, [], none, []⟩,
          ⟨"user_name".toList, "VARCHAR(255)".toList, "YES".toList, [], none, []⟩] :
            List TableDescriptor).length + 2 :=
  c5_line_structure _ _ _ (by decide) (by decide) (by decide)

example : cleanOf "BIGINT(20) UNSIGNED".toList = "BIGINT".toList := by decide
example : cleanOf "INT (3)".toList = "INT ".toList := by decide
example : getType ⟨"avatar".toList, "BLOB".toList, yesLit, [], none, []⟩ = byteSeqLit := by decide
example : Camelize "user_name".toList true = "UserName".toList := by decide
example : Camelize "_id".toList true = "Id".toList := by decide

end Db2go
